import Mathlib

/-!
Verification of the polyline codec (encoded polyline algorithm format).

The development shallowly embeds the two Rust source files:

* `src/chunks.rs` — the 5-bit chunk codec (`Chunks::parse`, `Chunks::slice`,
  `Chunks::parse_line`, `Chunks::string`, `Chunks::coordinate`, `Chunks::or`);
* `src/lib.rs`   — the coordinate codec (`encode`, `decode`, `encode_element`,
  `decode_element`, `round`, `Point`).

Modelling conventions:

* `f64` values are modelled as exact rationals `ℚ`; `f64::round` (round half
  away from zero) is `rustRound`.
* `u32` values are natural numbers; every operation that wraps in Rust takes
  an explicit `% 4294967296`.  `i32` values are integers in
  `[-2^31, 2^31)`; reinterpreting casts are `toU32` / `toI32`.
* Integer overflow follows Rust release-profile semantics — wrapping
  arithmetic and masked shift amounts — which is the behaviour the format
  documentation mandates ("preserve fixed-width (32-bit) integer semantics,
  including documented wraparound behavior").
* Operations that can fail to return a value (the `char::try_from(..).unwrap()`
  in `Chunks::string`, and the `while base.pow(i) <= element` loop of
  `Chunks::slice`, which never terminates once `i` reaches 35 because
  `2u32.pow(35)` wraps to `0`) are modelled in `Option`, `none` meaning
  "no value is returned" (panic or divergence).
* Strings are lists of unicode code points (`List Nat`); `byteLen` is the
  UTF-8 byte count that Rust's `str::len` returns.
-/

namespace Polyline

/-- Reinterpret an integer as a `u32` bit pattern (Rust `as u32` / wrapping
arithmetic on `u32`). -/
def toU32 (x : Int) : Nat := (x % 4294967296).toNat

/-- Reinterpret a `u32` bit pattern as an `i32` (Rust `as i32`). -/
def toI32 (n : Nat) : Int :=
  if n % 4294967296 < 2147483648 then ((n % 4294967296 : Nat) : Int)
  else ((n % 4294967296 : Nat) : Int) - 4294967296

/-- Wrapping `i32` addition (Rust release-profile `+=` on `i32`). -/
def addI32 (a b : Int) : Int := toI32 (toU32 (a + b))

/-- `10_u32.pow(precision)`: wraps modulo `2^32` (release profile) when the
mathematical power overflows `u32`. -/
def pow10 (p : Nat) : Nat := 10 ^ p % 4294967296

/-- Rust `f64 as i32` cast of an (exactly represented) integer value:
saturating. -/
def f64toI32 (x : Int) : Int := max (-2147483648) (min 2147483647 x)

/-- Rust `f64::round`: round to the nearest integer, ties away from zero. -/
def rustRound (q : ℚ) : Int := if q < 0 then -(⌊-q + 1/2⌋) else ⌊q + 1/2⌋

/-- Number of UTF-8 bytes of one code point. -/
def utf8Len (c : Nat) : Nat :=
  if c < 128 then 1 else if c < 2048 then 2 else if c < 65536 then 3 else 4

/-- UTF-8 byte length of a string given as a list of code points
(Rust `str::len`). -/
def byteLen (l : List Nat) : Nat := (l.map utf8Len).sum

/-- `char::try_from(u32)`: succeeds exactly on unicode scalar values. -/
def charTryFrom (n : Nat) : Option Nat :=
  if n < 55296 ∨ (57344 ≤ n ∧ n < 1114112) then some n else none

namespace Chunks

/-- Loop of `Chunks::slice` (`chunks.rs` lines 76–81):
`while base.pow(i) <= element { push((element >> i) & 0b11111); i += 5 }`.
`base.pow(i)` is a `u32` power, hence the `% 4294967296`; once `32 ≤ i` that
power has wrapped to `0`, the test is always true, and the Rust loop never
terminates (in a debug build `pow` panics instead), so no value is returned. -/
def sliceAux (element i : Nat) : Option (List Nat) :=
  if 2 ^ i % 4294967296 ≤ element then
    if 32 ≤ i then none
    else Option.map (fun rest => ((element >>> i) &&& 31) :: rest)
      (sliceAux element (i + 5))
  else some []
termination_by 36 - i
decreasing_by simp_wf; omega

/-- `Chunks::slice` (`chunks.rs` lines 65–84): value `0` yields the single
chunk `[0]`; otherwise the extraction loop starting at bit offset `0`. -/
def slice (element : Nat) : Option (List Nat) :=
  if element = 0 then some [0] else sliceAux element 0

/-- `Chunks::parse` (`chunks.rs` lines 15–17): delegates to `slice`. -/
def parse (element : Nat) : Option (List Nat) := slice element

/-- Loop body of `Chunks::parse_line` (`chunks.rs` lines 24–31): `n` is the
byte length `line.len()`, `i` the running character index from `enumerate`;
each character maps to `letter as u32 - 63` (wrapping subtraction), masked
with `0b11111` except when `i == n - 1`. -/
def parseLineAux (n : Nat) : List Nat → Nat → List Nat
  | [], _ => []
  | c :: rest, i =>
    (if i ≠ n - 1 then toU32 ((c : Int) - 63) &&& 31 else toU32 ((c : Int) - 63)) ::
      parseLineAux n rest (i + 1)

/-- `Chunks::parse_line` (`chunks.rs` lines 20–33).  Note the last-character
test compares the character index with `line.len() - 1`, a byte length. -/
def parse_line (line : List Nat) : List Nat := parseLineAux (byteLen line) line 0

/-- Loop body of `Chunks::or` (`chunks.rs` lines 90–99): `n` is the chunk
count; every chunk except the last is OR'd with `0x20`, then 63 is added
(wrapping `u32` addition). -/
def orAux (n : Nat) : List Nat → Nat → List Nat
  | [], _ => []
  | e :: rest, i =>
    ((if i < n - 1 then e ||| 32 else e) + 63) % 4294967296 :: orAux n rest (i + 1)

/-- `Chunks::or` (`chunks.rs` lines 90–99). -/
def or (cs : List Nat) : List Nat := orAux cs.length cs 0

/-- Character-conversion loop of `Chunks::string` (`chunks.rs` lines 39–42):
`char::try_from(*e).unwrap()` for every marked chunk; an invalid scalar value
means a panic, i.e. no result. -/
def stringAux : List Nat → Option (List Nat)
  | [] => some []
  | c :: rest =>
    (charTryFrom c).bind (fun ch => (stringAux rest).map (fun r => ch :: r))

/-- `Chunks::string` (`chunks.rs` lines 36–45): applies `or`, then converts
every chunk to a character. -/
def string (cs : List Nat) : Option (List Nat) := stringAux (or cs)

/-- Summation loop of `Chunks::coordinate` (`chunks.rs` lines 51–53):
`result_int += (element << i*5) as i32` — a `u32` shift whose amount is
masked modulo 32 (release profile), cast to `i32`, accumulated with
wrapping `i32` addition. -/
def coordAux : List Nat → Nat → Int → Int
  | [], _, acc => acc
  | e :: rest, i, acc =>
    coordAux rest (i + 1) (addI32 acc (toI32 ((e <<< (i * 5 % 32)) % 4294967296)))

/-- `Chunks::coordinate` (`chunks.rs` lines 48–62): reassemble the chunks,
undo the zig-zag transform (`!x` when the low bit is set, then arithmetic
shift right by one), and divide by `10_u32.pow(precision) as f64`. -/
def coordinate (cs : List Nat) (precision : Nat) : ℚ :=
  let r0 := coordAux cs 0 0
  let r1 := if r0 % 2 = 1 then -r0 - 1 else r0
  (((Int.fdiv r1 2 : Int) : ℚ)) / ((pow10 precision : Nat) : ℚ)

end Chunks

/-- `Point` (`lib.rs` lines 32–36). -/
structure Point where
  latitude : ℚ
  longitude : ℚ
deriving DecidableEq

/-- `round` (`lib.rs` lines 175–179): `(n*factor).round() / factor` with
`factor = 10_u32.pow(precision) as f64`. -/
def round (n : ℚ) (precision : Nat) : ℚ :=
  ((rustRound (n * ((pow10 precision : Nat) : ℚ)) : Int) : ℚ) /
    ((pow10 precision : Nat) : ℚ)

/-- `encode_element` (`lib.rs` lines 152–165): scale and round the delta,
cast to `i32` (saturating), shift left by one (wrapping), complement when the
original delta is negative, reinterpret as `u32` and feed to the chunk
codec. -/
def encode_element (element : ℚ) (precision : Nat) : Option (List Nat) :=
  let elementInt : Int :=
    f64toI32 (rustRound (element * ((pow10 precision : Nat) : ℚ)))
  let shifted : Int := toI32 (toU32 (elementInt * 2))
  let signed : Int := if element < 0 then -shifted - 1 else shifted
  (Chunks.parse (toU32 signed)).bind (fun cs => Chunks.string cs)

/-- `decode_element` (`lib.rs` lines 167–173): `parse_line` then
`coordinate`. -/
def decode_element (group : List Nat) (precision : Nat) : ℚ :=
  Chunks.coordinate (Chunks.parse_line group) precision

/-- Loop of `encode` (`lib.rs` lines 64–73): `latitude`/`longitude` are the
running accumulators, updated to the raw input coordinates after each
point. -/
def encodeLoop : List Point → Nat → ℚ → ℚ → Option (List Nat)
  | [], _, _, _ => some []
  | pt :: rest, precision, latitude, longitude =>
    (encode_element (pt.latitude - latitude) precision).bind (fun a =>
      (encode_element (pt.longitude - longitude) precision).bind (fun b =>
        (encodeLoop rest precision pt.latitude pt.longitude).map (fun r =>
          a ++ b ++ r)))

/-- `encode` (`lib.rs` lines 58–76): both accumulators start at `0`. -/
def encode (points : List Point) (precision : Nat) : Option (List Nat) :=
  encodeLoop points precision 0 0

/-- The group-termination test of `decode` (`lib.rs` line 110):
`(letter as i32 - 63) & 0x20 == 0`, expressed through the low-bits residue
of the two's complement value (`v & 0x20 == 0` iff `v mod 64 < 32`). -/
def contBitClear (letter : Nat) : Bool := ((letter : Int) - 63) % 64 < 32

/-- Scanning loop of `decode` (`lib.rs` lines 107–114): characters accumulate
into `group`; a character whose continuation bit is clear emits
`decode_element group` and resets the buffer. -/
def scanCoords : List Nat → List Nat → Nat → List ℚ
  | [], _, _ => []
  | letter :: rest, group, precision =>
    if contBitClear letter then
      decode_element (group ++ [letter]) precision :: scanCoords rest [] precision
    else
      scanCoords rest (group ++ [letter]) precision

/-- Pairing loop of `decode` (`lib.rs` lines 116–124): indices `(0,1), (2,3), …`
of the flat delta list become points with `round` applied; a dangling final
delta is dropped. -/
def pairPoints : List ℚ → Nat → List Point
  | a :: b :: rest, precision =>
    ⟨round a precision, round b precision⟩ :: pairPoints rest precision
  | _, _ => []

/-- Accumulation loop of `decode` (`lib.rs` lines 126–133): starting from
`(0,0)`, the rounded sum becomes both the emitted coordinate and the new
accumulator value. -/
def accumPoints : List Point → ℚ → ℚ → Nat → List Point
  | [], _, _, _ => []
  | e :: rest, latitude, longitude, precision =>
    let la := round (latitude + e.latitude) precision
    let lo := round (longitude + e.longitude) precision
    ⟨la, lo⟩ :: accumPoints rest la lo precision

/-- `decode` (`lib.rs` lines 102–136). -/
def decode (polyline : List Nat) (precision : Nat) : List Point :=
  accumPoints (pairPoints (scanCoords polyline [] precision) precision) 0 0 precision

/-! ### Instrumented decode

The only operation of the `decode` pipeline that can abort even under the
release profile is the vector indexing `coordinates[i-1]` / `coordinates[i]`
in the pairing loop (all integer arithmetic on the decode path wraps or masks
in release builds, as the spec's fixed-width-semantics note mandates).
`pairChecked` mirrors that loop with checked indexing, `none` meaning an
out-of-bounds panic. -/

/-- Pairing loop of `decode` with checked indexing: `while i < len` reading
`coordinates[i-1]` and `coordinates[i]`, stepping `i` by 2 from 1. -/
def pairChecked (coords : List ℚ) (precision : Nat) (i : Nat) : Option (List Point) :=
  if i < coords.length then
    (coords.get? (i - 1)).bind (fun a =>
      (coords.get? i).bind (fun b =>
        (pairChecked coords precision (i + 2)).map (fun rest =>
          (⟨round a precision, round b precision⟩ : Point) :: rest)))
  else some []
termination_by coords.length - i
decreasing_by simp_wf; omega

/-- `decode` with every release-profile abort point checked. -/
def decodeChecked (polyline : List Nat) (precision : Nat) : Option (List Point) :=
  (pairChecked (scanCoords polyline [] precision) precision 1).map
    (fun pts => accumPoints pts 0 0 precision)

/-! ### Definitions modelled from the specification's wording

Each `spec…` definition below transcribes a sentence of the specification
document (not the source); the claims compare them with the source-derived
definitions above. -/

/-- Value of a chunk sequence: `c₀ + 32·c₁ + 32²·c₂ + …` (Horner form of
"each group shifted left by `5·index`, summed"); arithmetic helper. -/
def sumBase32 : List Nat → Nat
  | [] => 0
  | c :: rest => c + 32 * sumBase32 rest

/-- Modelled from the spec: "summing each group left-shifted by `5 * index`"
with exact (unmasked) shift amounts, the sum taken as a 32-bit pattern. -/
def specSumAux : List Nat → Nat → Nat
  | [], _ => 0
  | c :: rest, i => c <<< (5 * i) + specSumAux rest (i + 1)

/-- Modelled from the spec (§4.1 render-to-coordinate): reassemble the groups
by summing each group left-shifted by `5 * index`, reinterpret the 32-bit
pattern as signed, complement if the low bit is 1, arithmetic-shift right by
one, and divide by `10^precision`. -/
def specCoordinate (cs : List Nat) (precision : Nat) : ℚ :=
  let r0 := toI32 (specSumAux cs 0 % 4294967296)
  let r1 := if r0 % 2 = 1 then -r0 - 1 else r0
  ((Int.fdiv r1 2 : Int) : ℚ) / ((pow10 precision : Nat) : ℚ)

/-- Modelled from the spec (§4.2 element encoder): `scaled = round(delta *
10^precision)` cast to `i32`, left-shift by one, bitwise-complement exactly
when the original unscaled delta is negative, reinterpret as unsigned, feed
to the chunk codec. -/
def specElementEncoder (delta : ℚ) (precision : Nat) : Option (List Nat) :=
  let scaled : Int := f64toI32 (rustRound (delta * ((pow10 precision : Nat) : ℚ)))
  let shifted : Int := toI32 (toU32 (2 * scaled))
  let marked : Int := if delta < 0 then -shifted - 1 else shifted
  (Chunks.parse (toU32 marked)).bind (fun cs => Chunks.string cs)

/-- Contrast definition for the sign test: the same element encoder except
that the complement is decided by the sign of the scaled integer rather than
the sign of the original unscaled delta. -/
def scaledSignElementEncoder (delta : ℚ) (precision : Nat) : Option (List Nat) :=
  let scaled : Int := f64toI32 (rustRound (delta * ((pow10 precision : Nat) : ℚ)))
  let shifted : Int := toI32 (toU32 (2 * scaled))
  let marked : Int := if scaled < 0 then -shifted - 1 else shifted
  (Chunks.parse (toU32 marked)).bind (fun cs => Chunks.string cs)

/-- Per-point encoding of a (current, previous) point pair: latitude delta
group followed by longitude delta group. -/
def encodePairs : List (Point × Point) → Nat → Option (List Nat)
  | [], _ => some []
  | q :: rest, precision =>
    (encode_element (q.1.latitude - q.2.latitude) precision).bind (fun a =>
      (encode_element (q.1.longitude - q.2.longitude) precision).bind (fun b =>
        (encodePairs rest precision).map (fun r => a ++ b ++ r)))

/-- Modelled from the spec (§4.2 encode): each point is encoded against its
predecessor's raw coordinates, the first point against the origin `(0,0)`. -/
def specEncode (points : List Point) (precision : Nat) : Option (List Nat) :=
  encodePairs (points.zip ((⟨0, 0⟩ : Point) :: points)) precision

/-- Sequential pairing of the flat delta list, raw (no rounding applied to
the pair members); a dangling final element is discarded. -/
def rawPairs : List ℚ → List (ℚ × ℚ)
  | a :: b :: rest => (a, b) :: rawPairs rest
  | _ => []

/-- Modelled from the spec (§4.2 decode, second pass): starting from `(0,0)`,
each point's raw paired deltas are added to the running accumulator and the
rounded sum becomes both the emitted coordinate and the new accumulator
value. -/
def rawAccum : List (ℚ × ℚ) → ℚ → ℚ → Nat → List Point
  | [], _, _, _ => []
  | d :: rest, latitude, longitude, precision =>
    let la := round (latitude + d.1) precision
    let lo := round (longitude + d.2) precision
    ⟨la, lo⟩ :: rawAccum rest la lo precision

/-- Modelled from the spec: decode as "scan groups, pair the raw deltas,
accumulate raw deltas and emit rounded sums". -/
def specDecodeRaw (polyline : List Nat) (precision : Nat) : List Point :=
  rawAccum (rawPairs (scanCoords polyline [] precision)) 0 0 precision

/-! ### Predicates used by the claims -/

/-- A well-formed coordinate group: nonempty, every character except the last
has the continuation bit set, the last character has it clear. -/
def isWFGroup : List Nat → Bool
  | [] => false
  | [c] => contBitClear c
  | c :: rest => !contBitClear c && isWFGroup rest

/-- Length of the longest completed group of a polyline string (a completed
group is a maximal character run ending at a character whose continuation
bit is clear); an unterminated trailing run is not a completed group. -/
def maxGroupLenAux : List Nat → Nat → Nat
  | [], _ => 0
  | c :: rest, cur =>
    if contBitClear c then max (cur + 1) (maxGroupLenAux rest 0)
    else maxGroupLenAux rest (cur + 1)

/-- Buffer contents left after scanning a polyline from buffer state `buf`. -/
def finalBuf : List Nat → List Nat → List Nat
  | [], buf => buf
  | c :: rest, buf =>
    if contBitClear c then finalBuf rest [] else finalBuf rest (buf ++ [c])

/-- A coordinate exactly expressible with `precision` decimal digits, whose
scaled integer value stays below `2^28` in magnitude. -/
def ExactBounded (q : ℚ) (precision : Nat) : Prop :=
  ∃ m : Int, q * ((pow10 precision : Nat) : ℚ) = (m : ℚ) ∧ m.natAbs < 268435456

/-! ## Machine-integer lemmas -/

theorem toU32_toI32 (n : Nat) : toU32 (toI32 n) = n % 4294967296 := by
  unfold toI32 toU32; split <;> omega

theorem toI32_toU32 (x : Int) (h1 : -2147483648 ≤ x) (h2 : x < 2147483648) :
    toI32 (toU32 x) = x := by
  unfold toI32 toU32; split <;> omega

theorem toI32_congr (a b : Nat) (h : a % 4294967296 = b % 4294967296) :
    toI32 a = toI32 b := by
  unfold toI32; rw [h]

theorem toI32_range (n : Nat) : -2147483648 ≤ toI32 n ∧ toI32 n < 2147483648 := by
  unfold toI32; split <;> omega

theorem toI32_small (n : Nat) (h : n < 2147483648) : toI32 n = (n : Int) := by
  unfold toI32; split <;> omega

theorem toU32_add (a b : Int) : toU32 (a + b) = (toU32 a + toU32 b) % 4294967296 := by
  unfold toU32; omega

theorem toU32_nat (n : Nat) (h : n < 4294967296) : toU32 (n : Int) = n := by
  unfold toU32; omega

theorem toU32_nonneg_small (x : Int) (h0 : 0 ≤ x) (h : x < 4294967296) :
    toU32 x = x.toNat := by
  unfold toU32; omega

theorem and31_eq_mod (n : Nat) : n &&& 31 = n % 32 := Nat.and_pow_two_sub_one_eq_mod n 5

theorem and31_lt (n : Nat) : n &&& 31 < 32 := by
  rw [and31_eq_mod]; omega

theorem or32_small (e : Nat) (h : e < 32) : e ||| 32 = e + 32 := by
  revert h
  revert e
  decide

theorem pow10_small (p : Nat) (hp : p ≤ 9) : pow10 p = 10 ^ p := by
  unfold pow10
  have h1 : (10:Nat) ^ p ≤ 10 ^ 9 := Nat.pow_le_pow_right (by norm_num) hp
  have h2 : (10:Nat) ^ 9 = 1000000000 := by norm_num
  exact Nat.mod_eq_of_lt (by omega)

theorem pow10_pos (p : Nat) (hp : p ≤ 9) : 0 < pow10 p := by
  rw [pow10_small p hp]
  exact Nat.pos_pow_of_pos p (by norm_num)

/-! ## Rounding lemmas -/

theorem rustRound_intCast (m : Int) : rustRound ((m : ℚ)) = m := by
  unfold rustRound
  split
  · rw [show -(m:ℚ) = ((-m : ℤ) : ℚ) by push_cast; ring, Int.floor_int_add]
    norm_num
  · rw [Int.floor_int_add]; norm_num

/-- Rounding is the identity on any value of the form `m / 10^p` (with the
code's wrapped factor `pow10 p`); in particular on every delta produced by
`decode_element`. -/
theorem round_div_pow10 (m : Int) (p : Nat) :
    round ((m : ℚ) / ((pow10 p : Nat) : ℚ)) p = (m : ℚ) / ((pow10 p : Nat) : ℚ) := by
  unfold round
  rcases Nat.eq_zero_or_pos (pow10 p) with h | h
  · rw [h]
    norm_num
  · have hF : ((pow10 p : Nat) : ℚ) ≠ 0 := by
      exact_mod_cast Nat.pos_iff_ne_zero.mp h
    rw [div_mul_cancel₀ _ hF, rustRound_intCast]

theorem round_exact (q : ℚ) (m : Int) (p : Nat)
    (hm : q * ((pow10 p : Nat) : ℚ) = (m : ℚ)) (hF : ((pow10 p : Nat) : ℚ) ≠ 0) :
    round q p = q := by
  have hq : q = (m : ℚ) / ((pow10 p : Nat) : ℚ) := by
    field_simp at hm ⊢
    linarith [hm]
  rw [hq, round_div_pow10]

/-! ## Characterization of `Chunks::slice` -/

/-- Once the input magnitude reaches `2^30`, the slice loop reaches `i = 35`,
where the `u32` power `2^35` has wrapped to `0`: the loop test never fails
again and no value is returned. -/
theorem sliceAux_ge (d : Nat) : ∀ (j e : Nat), 7 - j ≤ d → j ≤ 7 → 1073741824 ≤ e →
    Chunks.sliceAux e (5 * j) = none := by
  induction d with
  | zero =>
    intro j e hd hj he
    have hj7 : j = 7 := by omega
    subst hj7
    rw [Chunks.sliceAux]
    norm_num
  | succ d ih =>
    intro j e hd hj he
    by_cases h7 : j = 7
    · subst h7
      rw [Chunks.sliceAux]
      norm_num
    · rw [Chunks.sliceAux]
      have hle : 2 ^ (5 * j) % 4294967296 ≤ e := by
        have h1 : (2:Nat) ^ (5 * j) ≤ 2 ^ 30 := Nat.pow_le_pow_right (by norm_num) (by omega)
        have h2 : 2 ^ (5 * j) % 4294967296 ≤ 2 ^ (5 * j) := Nat.mod_le _ _
        have h3 : (2:Nat) ^ 30 = 1073741824 := by norm_num
        omega
      rw [if_pos hle, if_neg (by omega)]
      have h55 : 5 * j + 5 = 5 * (j + 1) := by ring
      rw [h55, ih (j + 1) e (by omega) (by omega) he]
      rfl

theorem parse_ge_none (e : Nat) (he : 1073741824 ≤ e) : Chunks.parse e = none := by
  unfold Chunks.parse Chunks.slice
  rw [if_neg (by omega)]
  have := sliceAux_ge 7 0 e (by omega) (by omega) he
  simpa using this

/-- For magnitudes below `2^30` the slice loop terminates and produces
exactly the groups `(e >>> 5k) &&& 31` for the indices `k` with
`2^(5k) ≤ e`. -/
theorem sliceAux_char (d : Nat) : ∀ (j v : Nat), 6 - j ≤ d → j ≤ 6 → 0 < v →
    v < 1073741824 →
    ∃ m, Chunks.sliceAux v (5 * j) =
        some ((List.range m).map (fun k => (v >>> (5 * (j + k))) &&& 31)) ∧
      ∀ k, k < m ↔ 2 ^ (5 * (j + k)) ≤ v := by
  induction d with
  | zero =>
    intro j v hd hj h0 hv
    have hj6 : j = 6 := by omega
    subst hj6
    refine ⟨0, ?_, ?_⟩
    · rw [Chunks.sliceAux]
      have hne : ¬ (2 ^ (5 * 6) % 4294967296 ≤ v) := by norm_num; omega
      rw [if_neg hne]
      rfl
    · intro k
      constructor
      · omega
      · intro hk
        exfalso
        have h1 : (2:Nat) ^ 30 ≤ 2 ^ (5 * (6 + k)) :=
          Nat.pow_le_pow_right (by norm_num) (by omega)
        have h3 : (2:Nat) ^ 30 = 1073741824 := by norm_num
        omega
  | succ d ih =>
    intro j v hd hj h0 hv
    by_cases hcond : 2 ^ (5 * j) ≤ v
    · have hj5 : j ≤ 5 := by
        by_contra hcon
        have hj6 : j = 6 := by omega
        subst hj6
        have h3 : (2:Nat) ^ (5 * 6) = 1073741824 := by norm_num
        omega
      obtain ⟨m, hm, hiff⟩ := ih (j + 1) v (by omega) (by omega) h0 hv
      refine ⟨m + 1, ?_, ?_⟩
      · rw [Chunks.sliceAux]
        have hmod : 2 ^ (5 * j) % 4294967296 = 2 ^ (5 * j) := by
          apply Nat.mod_eq_of_lt
          calc (2:Nat) ^ (5 * j) ≤ v := hcond
            _ < 4294967296 := by omega
        rw [hmod, if_pos hcond, if_neg (by omega)]
        have h55 : 5 * j + 5 = 5 * (j + 1) := by ring
        rw [h55, hm]
        rw [List.range_succ_eq_map, List.map_cons, List.map_map]
        have harg : (fun k => (v >>> (5 * (j + k))) &&& 31) ∘ Nat.succ =
            fun k => (v >>> (5 * (j + 1 + k))) &&& 31 := by
          funext k
          simp only [Function.comp]
          have : j + Nat.succ k = j + 1 + k := by omega
          rw [this]
        rw [harg]
        simp
      · intro k
        cases k with
        | zero =>
          simp only [Nat.add_zero]
          omega
        | succ k =>
          have h1 := hiff k
          have h2 : 5 * (j + 1 + k) = 5 * (j + (k + 1)) := by ring
          rw [h2] at h1
          omega
    · refine ⟨0, ?_, ?_⟩
      · rw [Chunks.sliceAux]
        have hne : ¬ (2 ^ (5 * j) % 4294967296 ≤ v) := by
          have hmod : 2 ^ (5 * j) % 4294967296 = 2 ^ (5 * j) := by
            apply Nat.mod_eq_of_lt
            have h1 : (2:Nat) ^ (5 * j) ≤ 2 ^ 30 :=
              Nat.pow_le_pow_right (by norm_num) (by omega)
            have h3 : (2:Nat) ^ 30 = 1073741824 := by norm_num
            omega
          rw [hmod]
          exact hcond
        rw [if_neg hne]
        rfl
      · intro k
        constructor
        · omega
        · intro hk
          exfalso
          have h1 : (2:Nat) ^ (5 * j) ≤ 2 ^ (5 * (j + k)) :=
            Nat.pow_le_pow_right (by norm_num) (by omega)
          omega

/-- `Chunks::parse` on a value `0 < v < 2^30`: the groups `(v >>> 5k) &&& 31`
for exactly the indices `k` with `2^(5k) ≤ v`. -/
theorem parse_char (v : Nat) (h0 : 0 < v) (hv : v < 1073741824) :
    ∃ m, Chunks.parse v = some ((List.range m).map (fun k => (v >>> (5 * k)) &&& 31)) ∧
      ∀ k, k < m ↔ 2 ^ (5 * k) ≤ v := by
  obtain ⟨m, hm, hiff⟩ := sliceAux_char 6 0 v (by omega) (by omega) h0 hv
  refine ⟨m, ?_, ?_⟩
  · unfold Chunks.parse Chunks.slice
    rw [if_neg (by omega)]
    have h0' : (5 : Nat) * 0 = 0 := by norm_num
    rw [h0'] at hm
    rw [hm]
    congr 1
    apply List.map_congr_left
    intro k _
    have : (0 : Nat) + k = k := by omega
    rw [this]
  · intro k
    have := hiff k
    simpa using this

theorem sumBase32_range (m : Nat) : ∀ v : Nat, v < 2 ^ (5 * m) →
    sumBase32 ((List.range m).map (fun k => (v >>> (5 * k)) &&& 31)) = v := by
  induction m with
  | zero =>
    intro v hv
    have : v = 0 := by simpa using hv
    subst this
    rfl
  | succ m ih =>
    intro v hv
    rw [List.range_succ_eq_map, List.map_cons, List.map_map]
    have harg : (fun k => (v >>> (5 * k)) &&& 31) ∘ Nat.succ =
        fun k => ((v >>> 5) >>> (5 * k)) &&& 31 := by
      funext k
      simp only [Function.comp]
      have h1 : 5 * Nat.succ k = 5 + 5 * k := by omega
      rw [h1, Nat.shiftRight_add]
    rw [harg]
    have hv5 : v >>> 5 < 2 ^ (5 * m) := by
      rw [Nat.shiftRight_eq_div_pow]
      have h1 : (2:Nat) ^ (5 * (m + 1)) = 2 ^ (5 * m) * 2 ^ 5 := by
        rw [← pow_add]; ring_nf
      apply Nat.div_lt_of_lt_mul
      calc v < 2 ^ (5 * (m+1)) := hv
        _ = 2 ^ 5 * 2 ^ (5 * m) := by rw [h1]; ring
    have htail := ih (v >>> 5) hv5
    unfold sumBase32
    rw [htail]
    have h0 : (5:Nat) * 0 = 0 := by norm_num
    rw [h0]
    have h2 : v >>> 0 = v := rfl
    rw [h2, and31_eq_mod, Nat.shiftRight_eq_div_pow]
    have h3 : (2:Nat) ^ 5 = 32 := by norm_num
    rw [h3]
    omega

/-- Facts about `Chunks::parse` on a terminating input: some chunk list whose
base-32 value is the input, every chunk below 32, nonempty, at most 6
chunks. -/
theorem parse_props (v : Nat) (hv : v < 1073741824) :
    ∃ cs, Chunks.parse v = some cs ∧ sumBase32 cs = v ∧ (∀ x ∈ cs, x < 32) ∧
      cs ≠ [] ∧ cs.length ≤ 6 := by
  rcases Nat.eq_zero_or_pos v with h0 | h0
  · subst h0
    refine ⟨[0], rfl, rfl, ?_, by simp, by simp⟩
    intro x hx
    simp at hx
    omega
  · obtain ⟨m, hm, hiff⟩ := parse_char v h0 hv
    have hm6 : m ≤ 6 := by
      by_contra hcon
      have h1 : 2 ^ (5 * 6) ≤ v := (hiff 6).mp (by omega)
      have h2 : (2:Nat) ^ (5 * 6) = 1073741824 := by norm_num
      omega
    have hv5m : v < 2 ^ (5 * m) := by
      by_contra hcon
      have : m < m := (hiff m).mpr (by omega)
      omega
    have hmpos : 0 < m := by
      apply (hiff 0).mpr
      simpa using h0
    refine ⟨_, hm, sumBase32_range m v hv5m, ?_, ?_, ?_⟩
    · intro x hx
      simp only [List.mem_map, List.mem_range] at hx
      obtain ⟨k, _, rfl⟩ := hx
      exact and31_lt _
    · cases m with
      | zero => omega
      | succ m => simp [List.range_succ_eq_map]
    · simpa using hm6

/-! ## The marking/rendering/parsing round trip of the chunk codec -/

theorem byteLen_ascii (l : List Nat) (h : ∀ c ∈ l, c < 128) : byteLen l = l.length := by
  induction l with
  | nil => rfl
  | cons c rest ih =>
    unfold byteLen at ih ⊢
    have hc : c < 128 := h c (by simp)
    simp only [List.map_cons, List.sum_cons, List.length_cons]
    rw [ih (fun x hx => h x (by simp [hx]))]
    unfold utf8Len
    rw [if_pos hc]
    omega

theorem stringAux_valid (l : List Nat) (h : ∀ c ∈ l, c < 55296) :
    Chunks.stringAux l = some l := by
  induction l with
  | nil => rfl
  | cons c rest ih =>
    unfold Chunks.stringAux
    have hc : charTryFrom c = some c := by
      unfold charTryFrom
      rw [if_pos (Or.inl (h c (by simp)))]
    rw [hc, ih (fun x hx => h x (by simp [hx]))]
    rfl

theorem contBitClear_add63 (e : Nat) (he : e < 32) : contBitClear (e + 63) = true := by
  unfold contBitClear
  simp only [decide_eq_true_eq]
  have h1 : ((e + 63 : Nat) : Int) - 63 = (e : Int) := by push_cast; ring
  rw [h1]
  omega

theorem contBitClear_add95 (e : Nat) (he : e < 32) : contBitClear (e + 95) = false := by
  unfold contBitClear
  simp only [decide_eq_false_iff_not, not_lt]
  have h1 : ((e + 95 : Nat) : Int) - 63 = ((e + 32 : Nat) : Int) := by push_cast; ring
  rw [h1]
  omega

/-- Combined facts about `Chunks::or` followed by `parse_line`: marking is
inverted exactly, the marked group is well formed, and every marked chunk is
a printable ASCII code in `[63, 126]`. -/
theorem orAux_props (cs : List Nat) : ∀ i n : Nat, i + cs.length = n →
    (∀ x ∈ cs, x < 32) → cs ≠ [] →
    (Chunks.orAux n cs i).length = cs.length ∧
    Chunks.parseLineAux n (Chunks.orAux n cs i) i = cs ∧
    isWFGroup (Chunks.orAux n cs i) = true ∧
    (∀ c ∈ Chunks.orAux n cs i, 63 ≤ c ∧ c ≤ 126) := by
  induction cs with
  | nil => intro i n hn hlt hne; exact absurd rfl hne
  | cons e rest ih =>
    intro i n hn hlt hne
    simp only [List.length_cons] at hn
    have he : e < 32 := hlt e (by simp)
    cases rest with
    | nil =>
      simp only [List.length_nil] at hn
      have hi : i = n - 1 := by omega
      have hni : ¬ (i < n - 1) := by omega
      unfold Chunks.orAux
      rw [if_neg hni]
      have hmod : (e + 63) % 4294967296 = e + 63 := Nat.mod_eq_of_lt (by omega)
      rw [hmod]
      refine ⟨rfl, ?_, ?_, ?_⟩
      · unfold Chunks.parseLineAux
        rw [if_neg (by omega)]
        have hcast : ((e + 63 : Nat) : Int) - 63 = ((e : Nat) : Int) := by push_cast; ring
        rw [hcast, toU32_nat e (by omega)]
        rfl
      · unfold isWFGroup
        exact contBitClear_add63 e he
      · intro c hc
        have hnil : Chunks.orAux n [] (i + 1) = [] := rfl
        rw [hnil] at hc
        simp only [List.mem_singleton] at hc
        omega
    | cons e2 rest2 =>
      simp only [List.length_cons] at hn
      have hi : i < n - 1 := by omega
      unfold Chunks.orAux
      rw [if_pos hi, or32_small e he]
      have hmod : (e + 32 + 63) % 4294967296 = e + 95 := Nat.mod_eq_of_lt (by omega)
      rw [hmod]
      obtain ⟨ihlen, ihparse, ihwf, ihrange⟩ :=
        ih (i + 1) n (by simp only [List.length_cons]; omega)
          (fun x hx => hlt x (by simp [hx])) (by simp)
      refine ⟨by simpa using ihlen, ?_, ?_, ?_⟩
      · unfold Chunks.parseLineAux
        rw [if_pos (by omega)]
        have hcast : ((e + 95 : Nat) : Int) - 63 = ((e + 32 : Nat) : Int) := by
          push_cast; ring
        rw [hcast, toU32_nat (e + 32) (by omega), and31_eq_mod]
        have hm : (e + 32) % 32 = e := by omega
        rw [hm, ihparse]
      · cases htail : Chunks.orAux n (e2 :: rest2) (i + 1) with
        | nil =>
          rw [htail] at ihlen
          simp at ihlen
        | cons r rs =>
          rw [htail] at ihwf
          unfold isWFGroup
          rw [contBitClear_add95 e he]
          simpa using ihwf
      · intro c hc
        simp only [List.mem_cons] at hc
        rcases hc with h | h
        · omega
        · exact ihrange c h

/-- The chunk-codec rendering round trip on a chunk list produced by `parse`:
`parse_line` inverts the marking, the rendered group is well formed, its
characters lie in `[63, 126]`, and the character conversion succeeds. -/
theorem or_props (cs : List Nat) (hlt : ∀ x ∈ cs, x < 32) (hne : cs ≠ []) :
    Chunks.parse_line (Chunks.or cs) = cs ∧ isWFGroup (Chunks.or cs) = true ∧
    (∀ c ∈ Chunks.or cs, 63 ≤ c ∧ c ≤ 126) ∧
    Chunks.string cs = some (Chunks.or cs) := by
  obtain ⟨hlen, hparse, hwf, hrange⟩ :=
    orAux_props cs 0 cs.length (by omega) hlt hne
  have hor : Chunks.or cs = Chunks.orAux cs.length cs 0 := rfl
  have hascii : ∀ c ∈ Chunks.or cs, c < 128 := by
    intro c hc
    rw [hor] at hc
    have := hrange c hc
    omega
  refine ⟨?_, hwf, ?_, ?_⟩
  · unfold Chunks.parse_line
    rw [byteLen_ascii _ hascii, hor, hlen]
    exact hparse
  · intro c hc
    rw [hor] at hc
    exact hrange c hc
  · unfold Chunks.string
    apply stringAux_valid
    intro c hc
    rw [hor] at hc
    have := hrange c hc
    omega

/-! ## Scanning lemmas for `decode` -/

/-- Scanning a well-formed group followed by anything emits exactly the
buffered group's delta, then continues with an empty buffer. -/
theorem scanCoords_wf_group (g : List Nat) : ∀ (s buf : List Nat) (p : Nat),
    isWFGroup g = true →
    scanCoords (g ++ s) buf p = decode_element (buf ++ g) p :: scanCoords s [] p := by
  induction g with
  | nil =>
    intro s buf p h
    simp [isWFGroup] at h
  | cons c rest ih =>
    intro s buf p h
    cases rest with
    | nil =>
      have hc : contBitClear c = true := by simpa [isWFGroup] using h
      rw [List.singleton_append, scanCoords, if_pos hc]
    | cons c2 rest2 =>
      have hsplit : contBitClear c = false ∧ isWFGroup (c2 :: rest2) = true := by
        have hexp : isWFGroup (c :: c2 :: rest2) =
            (!contBitClear c && isWFGroup (c2 :: rest2)) := rfl
        rw [hexp] at h
        constructor
        · cases hcc : contBitClear c
          · rfl
          · rw [hcc] at h; simp at h
        · cases hw : isWFGroup (c2 :: rest2)
          · rw [hw] at h; simp at h
          · rfl
      rw [List.cons_append, scanCoords, if_neg (by simp [hsplit.1])]
      rw [ih s (buf ++ [c]) p hsplit.2, List.append_assoc]
      simp

/-- Scanning a string none of whose characters terminates a group emits
nothing, from any buffer state. -/
theorem scanCoords_no_term (t : List Nat) : ∀ (buf : List Nat) (p : Nat),
    (∀ c ∈ t, contBitClear c = false) → scanCoords t buf p = [] := by
  induction t with
  | nil => intro buf p _; rfl
  | cons c rest ih =>
    intro buf p h
    simp only [scanCoords]
    rw [if_neg (by simp [h c (by simp)])]
    exact ih _ p (fun x hx => h x (by simp [hx]))

/-- Scanning a concatenation: the first part's emissions followed by the
second part's emissions from the buffer the first part leaves behind. -/
theorem scanCoords_append (s : List Nat) : ∀ (t buf : List Nat) (p : Nat),
    scanCoords (s ++ t) buf p =
      scanCoords s buf p ++ scanCoords t (finalBuf s buf) p := by
  induction s with
  | nil =>
    intro t buf p
    simp only [List.nil_append]
    rfl
  | cons c rest ih =>
    intro t buf p
    rw [List.cons_append, scanCoords, scanCoords, finalBuf]
    by_cases hc : contBitClear c = true
    · rw [if_pos hc, if_pos hc, if_pos hc, ih]
      rfl
    · have hc' : contBitClear c = false := by
        cases hcc : contBitClear c
        · rfl
        · exact absurd hcc hc
      rw [if_neg (by simp [hc']), if_neg (by simp [hc']), if_neg (by simp [hc']), ih]

/-- Every delta the scan emits has the shape `m / 10^p`. -/
theorem scanCoords_exact (s : List Nat) : ∀ (buf : List Nat) (p : Nat) (d : ℚ),
    d ∈ scanCoords s buf p → ∃ m : Int, d = (m : ℚ) / ((pow10 p : Nat) : ℚ) := by
  induction s with
  | nil =>
    intro buf p d hd
    simp [scanCoords] at hd
  | cons c rest ih =>
    intro buf p d hd
    simp only [scanCoords] at hd
    by_cases hc : contBitClear c = true
    · rw [if_pos hc] at hd
      simp only [List.mem_cons] at hd
      rcases hd with h | h
      · exact ⟨_, h⟩
      · exact ih [] p d h
    · rw [if_neg hc] at hd
      exact ih _ p d hd

/-- The scan emits one delta per group-terminating character. -/
theorem scanCoords_length (s : List Nat) : ∀ (buf : List Nat) (p : Nat),
    (scanCoords s buf p).length = s.countP (fun c => contBitClear c) := by
  induction s with
  | nil => intro buf p; rfl
  | cons c rest ih =>
    intro buf p
    simp only [scanCoords]
    rw [List.countP_cons]
    by_cases hc : contBitClear c = true
    · rw [if_pos hc]
      simp only [List.length_cons, ih]
      rw [hc]
      simp
    · have hc' : contBitClear c = false := by
        cases hcc : contBitClear c
        · rfl
        · exact absurd hcc hc
      rw [if_neg hc]
      rw [ih, hc']
      simp

/-! ## Reassembly: `Chunks::coordinate` -/

theorem toU32_lt (x : Int) : toU32 x < 4294967296 := by
  unfold toU32; omega

/-- The summation loop of `coordinate` computes the base-32 value of the
chunks as a wrapped 32-bit pattern, as long as no shift amount is masked
(at most 7 chunks). -/
theorem coordAux_eq (cs : List Nat) : ∀ (j : Nat) (acc : Int),
    (∀ x ∈ cs, x < 4294967296) → j + cs.length ≤ 7 →
    -2147483648 ≤ acc → acc < 2147483648 →
    Chunks.coordAux cs j acc =
      toI32 ((toU32 acc + sumBase32 cs * 2 ^ (5 * j)) % 4294967296) := by
  induction cs with
  | nil =>
    intro j acc _ _ h1 h2
    show acc = toI32 ((toU32 acc + sumBase32 [] * 2 ^ (5 * j)) % 4294967296)
    unfold sumBase32
    rw [zero_mul, add_zero, Nat.mod_eq_of_lt (toU32_lt acc), toI32_toU32 acc h1 h2]
  | cons c rest ih =>
    intro j acc hlt hlen h1 h2
    simp only [List.length_cons] at hlen
    have hj : j ≤ 6 := by omega
    have hmask : j * 5 % 32 = 5 * j := by
      have : j * 5 ≤ 30 := by omega
      omega
    show Chunks.coordAux rest (j + 1)
        (addI32 acc (toI32 ((c <<< (j * 5 % 32)) % 4294967296))) = _
    rw [hmask]
    set t := toI32 ((c <<< (5 * j)) % 4294967296) with ht
    have hrange := toI32_range (toU32 (acc + t))
    have haddr : addI32 acc t = toI32 (toU32 (acc + t)) := rfl
    rw [ih (j + 1) (addI32 acc t)
      (fun x hx => hlt x (by simp [hx])) (by omega)
      (by rw [haddr]; exact (toI32_range _).1) (by rw [haddr]; exact (toI32_range _).2)]
    apply toI32_congr
    have hu : toU32 (addI32 acc t) = (toU32 acc + (c <<< (5 * j))) % 4294967296 := by
      rw [haddr, toU32_toI32, Nat.mod_eq_of_lt (toU32_lt _), toU32_add, ht, toU32_toI32]
      omega
    rw [hu]
    have hsum : sumBase32 (c :: rest) * 2 ^ (5 * j) =
        (c <<< (5 * j)) + sumBase32 rest * 2 ^ (5 * (j + 1)) := by
      have hhead : sumBase32 (c :: rest) = c + 32 * sumBase32 rest := rfl
      rw [hhead, Nat.shiftLeft_eq]
      have hpow : (2:Nat) ^ (5 * (j + 1)) = 2 ^ (5 * j) * 32 := by
        rw [show 5 * (j + 1) = 5 * j + 5 by ring, pow_add]
        norm_num
      rw [hpow]
      ring
    rw [hsum]
    generalize toU32 acc = X
    generalize (c <<< (5 * j)) = B
    generalize sumBase32 rest * 2 ^ (5 * (j + 1)) = C
    omega

/-- `coordinate`'s loop from the initial state. -/
theorem coordAux_total (cs : List Nat) (hlt : ∀ x ∈ cs, x < 4294967296)
    (hlen : cs.length ≤ 7) :
    Chunks.coordAux cs 0 0 = toI32 (sumBase32 cs % 4294967296) := by
  have h := coordAux_eq cs 0 0 hlt (by omega) (by norm_num) (by norm_num)
  rw [h]
  have h0 : toU32 0 = 0 := rfl
  rw [h0]
  norm_num

theorem specSumAux_eq (cs : List Nat) : ∀ j : Nat,
    specSumAux cs j = sumBase32 cs * 2 ^ (5 * j) := by
  induction cs with
  | nil => intro j; simp [specSumAux, sumBase32]
  | cons c rest ih =>
    intro j
    unfold specSumAux sumBase32
    rw [ih (j + 1), Nat.shiftLeft_eq]
    have hpow : (2:Nat) ^ (5 * (j + 1)) = 2 ^ (5 * j) * 32 := by
      rw [show 5 * (j + 1) = 5 * j + 5 by ring, pow_add]
      norm_num
    rw [hpow]
    ring

theorem parseLineAux_lt (l : List Nat) : ∀ n i : Nat,
    ∀ x ∈ Chunks.parseLineAux n l i, x < 4294967296 := by
  induction l with
  | nil => intro n i x hx; simp [Chunks.parseLineAux] at hx
  | cons c rest ih =>
    intro n i x hx
    unfold Chunks.parseLineAux at hx
    simp only [List.mem_cons] at hx
    rcases hx with h | h
    · subst h
      split
      · have := and31_lt (toU32 ((c : Int) - 63))
        omega
      · exact toU32_lt _
    · exact ih n (i + 1) x h

theorem parseLineAux_length (l : List Nat) : ∀ n i : Nat,
    (Chunks.parseLineAux n l i).length = l.length := by
  induction l with
  | nil => intro n i; rfl
  | cons c rest ih =>
    intro n i
    unfold Chunks.parseLineAux
    simp only [List.length_cons, ih]

/-! ## The element round trip -/

/-- Encoding a delta whose exact scaled value is an integer `s` with
`|s| < 2^29` succeeds, yields a well-formed group, and that group decodes
back to exactly `s / 10^p`. -/
theorem encode_element_ok (p : Nat) (hp : p ≤ 9) (q : ℚ) (s : Int)
    (hs : q * ((pow10 p : Nat) : ℚ) = (s : ℚ)) (hb : s.natAbs < 536870912) :
    ∃ g, encode_element q p = some g ∧ isWFGroup g = true ∧
      decode_element g p = (s : ℚ) / ((pow10 p : Nat) : ℚ) := by
  have hFpos : (0 : ℚ) < ((pow10 p : Nat) : ℚ) := by
    exact_mod_cast pow10_pos p hp
  have hFne : ((pow10 p : Nat) : ℚ) ≠ 0 := ne_of_gt hFpos
  have hq : q = (s : ℚ) / ((pow10 p : Nat) : ℚ) := by
    rw [eq_div_iff hFne]
    exact hs
  have hsign : q < 0 ↔ s < 0 := by
    rw [hq, div_lt_iff₀ hFpos, zero_mul]
    exact Int.cast_lt_zero
  have hsb : -536870912 < s ∧ s < 536870912 := by omega
  have hround : rustRound (q * ((pow10 p : Nat) : ℚ)) = s := by
    rw [hs, rustRound_intCast]
  have hclamp : f64toI32 s = s := by
    unfold f64toI32
    omega
  have hshift : toI32 (toU32 (s * 2)) = s * 2 :=
    toI32_toU32 (s * 2) (by omega) (by omega)
  -- the zig-zag value fed to the chunk codec
  by_cases hneg : q < 0
  · have hsneg : s < 0 := hsign.mp hneg
    have hu : toU32 (-(s * 2) - 1) = (-(s * 2) - 1).toNat :=
      toU32_nonneg_small _ (by omega) (by omega)
    have hulow : (-(s * 2) - 1).toNat < 1073741824 := by omega
    obtain ⟨cs, hparse, hsum, hlt32, hne, hlen⟩ := parse_props _ hulow
    obtain ⟨hpl, hwf, _, hstr⟩ := or_props cs (fun x hx => hlt32 x hx) hne
    refine ⟨Chunks.or cs, ?_, hwf, ?_⟩
    · unfold encode_element
      dsimp only
      rw [hround, hclamp, hshift, if_pos hneg, hu, hparse]
      simpa using hstr
    · unfold decode_element
      rw [hpl]
      unfold Chunks.coordinate
      dsimp only
      have hlt32' : ∀ x ∈ cs, x < 4294967296 := by
        intro x hx
        have := hlt32 x hx
        omega
      rw [coordAux_total cs hlt32' (by omega), hsum]
      have hmod : (-(s * 2) - 1).toNat % 4294967296 = (-(s * 2) - 1).toNat :=
        Nat.mod_eq_of_lt (by omega)
      rw [hmod, toI32_small _ (by omega)]
      have hcast : (((-(s * 2) - 1).toNat : Nat) : Int) = -(s * 2) - 1 := by omega
      rw [hcast]
      have hodd : (-(s * 2) - 1) % 2 = 1 := by omega
      rw [if_pos hodd]
      have hr1 : -(-(s * 2) - 1) - 1 = 2 * s := by ring
      rw [hr1, Int.mul_fdiv_cancel_left s (by norm_num)]
  · have hsnn : 0 ≤ s := by
      by_contra hcon
      exact hneg (hsign.mpr (by omega))
    have hu : toU32 (s * 2) = (s * 2).toNat :=
      toU32_nonneg_small _ (by omega) (by omega)
    have hulow : (s * 2).toNat < 1073741824 := by omega
    obtain ⟨cs, hparse, hsum, hlt32, hne, hlen⟩ := parse_props _ hulow
    obtain ⟨hpl, hwf, _, hstr⟩ := or_props cs (fun x hx => hlt32 x hx) hne
    refine ⟨Chunks.or cs, ?_, hwf, ?_⟩
    · unfold encode_element
      dsimp only
      rw [hround, hclamp, if_neg hneg, hshift, hu, hparse]
      simpa using hstr
    · unfold decode_element
      rw [hpl]
      unfold Chunks.coordinate
      dsimp only
      have hlt32' : ∀ x ∈ cs, x < 4294967296 := by
        intro x hx
        have := hlt32 x hx
        omega
      rw [coordAux_total cs hlt32' (by omega), hsum]
      have hmod : (s * 2).toNat % 4294967296 = (s * 2).toNat :=
        Nat.mod_eq_of_lt (by omega)
      rw [hmod, toI32_small _ (by omega)]
      have hcast : (((s * 2).toNat : Nat) : Int) = s * 2 := by omega
      rw [hcast]
      have heven : ¬ ((s * 2) % 2 = 1) := by omega
      rw [if_neg heven]
      rw [show s * 2 = 2 * s by ring, Int.mul_fdiv_cancel_left s (by norm_num)]

theorem pairPoints_cons2 (a b : ℚ) (t : List ℚ) (p : Nat) :
    pairPoints (a :: b :: t) p = ⟨round a p, round b p⟩ :: pairPoints t p := rfl

theorem accumPoints_cons (e : Point) (t : List Point) (la lo : ℚ) (p : Nat) :
    accumPoints (e :: t) la lo p =
      ⟨round (la + e.latitude) p, round (lo + e.longitude) p⟩ ::
        accumPoints t (round (la + e.latitude) p) (round (lo + e.longitude) p) p := rfl

/-- Main round-trip induction: encoding from exactly-representable previous
coordinates and decoding the result reconstructs the (rounded) points, the
decode accumulation starting from the same previous coordinates. -/
theorem encodeLoop_decodes (points : List Point) : ∀ (p : Nat) (la lo : ℚ) (A B : Int),
    p ≤ 9 →
    la * ((pow10 p : Nat) : ℚ) = (A : ℚ) → A.natAbs < 268435456 →
    lo * ((pow10 p : Nat) : ℚ) = (B : ℚ) → B.natAbs < 268435456 →
    (∀ pt ∈ points, ExactBounded pt.latitude p ∧ ExactBounded pt.longitude p) →
    ∃ str, encodeLoop points p la lo = some str ∧
      accumPoints (pairPoints (scanCoords str [] p) p) la lo p =
        points.map (fun pt => (⟨round pt.latitude p, round pt.longitude p⟩ : Point)) := by
  induction points with
  | nil =>
    intro p la lo A B _ _ _ _ _ _
    exact ⟨[], rfl, rfl⟩
  | cons pt rest ih =>
    intro p la lo A B hp hA hAb hB hBb hEB
    have hFpos : (0 : ℚ) < ((pow10 p : Nat) : ℚ) := by
      exact_mod_cast pow10_pos p hp
    have hFne : ((pow10 p : Nat) : ℚ) ≠ 0 := ne_of_gt hFpos
    obtain ⟨⟨Ma, hMa, hMab⟩, ⟨Mb, hMb, hMbb⟩⟩ := hEB pt (by simp)
    have hda : (pt.latitude - la) * ((pow10 p : Nat) : ℚ) = ((Ma - A : Int) : ℚ) := by
      rw [sub_mul, hMa, hA]
      push_cast
      ring
    have hdb : (pt.longitude - lo) * ((pow10 p : Nat) : ℚ) = ((Mb - B : Int) : ℚ) := by
      rw [sub_mul, hMb, hB]
      push_cast
      ring
    obtain ⟨ga, hga, hgawf, hgadec⟩ :=
      encode_element_ok p hp _ _ hda (by omega)
    obtain ⟨gb, hgb, hgbwf, hgbdec⟩ :=
      encode_element_ok p hp _ _ hdb (by omega)
    obtain ⟨str, hstr, hacc⟩ :=
      ih p pt.latitude pt.longitude Ma Mb hp hMa hMab hMb hMbb
        (fun x hx => hEB x (by simp [hx]))
    refine ⟨ga ++ gb ++ str, ?_, ?_⟩
    · unfold encodeLoop
      rw [hga, hgb, hstr]
      rfl
    · rw [List.append_assoc, scanCoords_wf_group ga (gb ++ str) [] p hgawf,
        scanCoords_wf_group gb str [] p hgbwf]
      simp only [List.nil_append]
      rw [hgadec, hgbdec, pairPoints_cons2, accumPoints_cons]
      have hrda : round (((Ma - A : Int) : ℚ) / ((pow10 p : Nat) : ℚ)) p =
          ((Ma - A : Int) : ℚ) / ((pow10 p : Nat) : ℚ) := round_div_pow10 _ p
      have hrdb : round (((Mb - B : Int) : ℚ) / ((pow10 p : Nat) : ℚ)) p =
          ((Mb - B : Int) : ℚ) / ((pow10 p : Nat) : ℚ) := round_div_pow10 _ p
      simp only [hrda, hrdb]
      have hla : la + ((Ma - A : Int) : ℚ) / ((pow10 p : Nat) : ℚ) = pt.latitude := by
        have h1 : la = (A : ℚ) / ((pow10 p : Nat) : ℚ) := by
          rw [eq_div_iff hFne]; exact hA
        have h2 : pt.latitude = (Ma : ℚ) / ((pow10 p : Nat) : ℚ) := by
          rw [eq_div_iff hFne]; exact hMa
        rw [h1, h2, div_add_div_same]
        congr 1
        push_cast
        ring
      have hlo : lo + ((Mb - B : Int) : ℚ) / ((pow10 p : Nat) : ℚ) = pt.longitude := by
        have h1 : lo = (B : ℚ) / ((pow10 p : Nat) : ℚ) := by
          rw [eq_div_iff hFne]; exact hB
        have h2 : pt.longitude = (Mb : ℚ) / ((pow10 p : Nat) : ℚ) := by
          rw [eq_div_iff hFne]; exact hMb
        rw [h1, h2, div_add_div_same]
        congr 1
        push_cast
        ring
      rw [hla, hlo]
      have hrla : round pt.latitude p = pt.latitude := round_exact _ Ma p hMa hFne
      have hrlo : round pt.longitude p = pt.longitude := round_exact _ Mb p hMb hFne
      rw [List.map_cons]
      rw [hrla, hrlo, hacc]

/-! ## Pairing and accumulation lemmas -/

theorem pairPoints_rawPairs : ∀ (ds : List ℚ) (p : Nat), (∀ d ∈ ds, round d p = d) →
    pairPoints ds p = (rawPairs ds).map (fun q => (⟨q.1, q.2⟩ : Point))
  | [], _, _ => rfl
  | [_], _, _ => rfl
  | a :: b :: rest, p, h => by
    rw [pairPoints_cons2]
    have hr : rawPairs (a :: b :: rest) = (a, b) :: rawPairs rest := rfl
    rw [hr, List.map_cons, h a (by simp), h b (by simp),
      pairPoints_rawPairs rest p (fun d hd => h d (by simp [hd]))]

theorem accumPoints_rawAccum : ∀ (qs : List (ℚ × ℚ)) (la lo : ℚ) (p : Nat),
    accumPoints (qs.map (fun q => (⟨q.1, q.2⟩ : Point))) la lo p = rawAccum qs la lo p
  | [], _, _, _ => rfl
  | q :: rest, la, lo, p => by
    rw [List.map_cons, accumPoints_cons]
    have hra : rawAccum (q :: rest) la lo p =
        ⟨round (la + q.1) p, round (lo + q.2) p⟩ ::
          rawAccum rest (round (la + q.1) p) (round (lo + q.2) p) p := rfl
    rw [hra, accumPoints_rawAccum rest _ _ p]

theorem pairPoints_length : ∀ (ds : List ℚ) (p : Nat),
    (pairPoints ds p).length = ds.length / 2
  | [], _ => rfl
  | [_], _ => by simp [pairPoints]
  | a :: b :: rest, p => by
    rw [pairPoints_cons2]
    simp only [List.length_cons]
    rw [pairPoints_length rest p]
    omega

theorem accumPoints_length : ∀ (pts : List Point) (la lo : ℚ) (p : Nat),
    (accumPoints pts la lo p).length = pts.length
  | [], _, _, _ => rfl
  | e :: rest, la, lo, p => by
    rw [accumPoints_cons]
    simp only [List.length_cons]
    rw [accumPoints_length rest _ _ p]

theorem pairPoints_take_even : ∀ (ds : List ℚ) (p : Nat),
    pairPoints ds p = pairPoints (ds.take (2 * (ds.length / 2))) p
  | [], _ => rfl
  | [_], _ => by simp [pairPoints]
  | a :: b :: rest, p => by
    have hlen : (a :: b :: rest).length = rest.length + 2 := by
      simp [List.length_cons]
    rw [hlen]
    have harith : 2 * ((rest.length + 2) / 2) = (2 * (rest.length / 2) + 1) + 1 := by
      omega
    rw [harith, List.take_succ_cons, List.take_succ_cons, pairPoints_cons2,
      pairPoints_cons2, pairPoints_take_even rest p]

/-! ## The checked pairing loop -/

theorem pairChecked_shift (d : Nat) : ∀ (coords : List ℚ) (x : ℚ) (i p : Nat),
    coords.length + 2 - i ≤ d → 1 ≤ i →
    pairChecked (x :: coords) p (i + 1) = pairChecked coords p i := by
  induction d with
  | zero =>
    intro coords x i p hd hi
    conv_lhs => rw [pairChecked]
    conv_rhs => rw [pairChecked]
    have h1 : ¬ (i + 1 < (x :: coords).length) := by
      simp only [List.length_cons]
      omega
    have h2 : ¬ (i < coords.length) := by omega
    rw [if_neg h1, if_neg h2]
  | succ d ih =>
    intro coords x i p hd hi
    conv_lhs => rw [pairChecked]
    conv_rhs => rw [pairChecked]
    by_cases h : i < coords.length
    · have h1 : i + 1 < (x :: coords).length := by
        simp only [List.length_cons]
        omega
      rw [if_pos h1, if_pos h]
      have hi1 : i + 1 - 1 = (i - 1) + 1 := by omega
      have hg1 : (x :: coords).get? (i + 1 - 1) = coords.get? (i - 1) := by
        rw [hi1]
        rfl
      have hg2 : (x :: coords).get? (i + 1) = coords.get? i := rfl
      rw [hg1, hg2]
      rw [show i + 1 + 2 = (i + 2) + 1 by ring,
        ih coords x (i + 2) p (by omega) (by omega)]
    · have h1 : ¬ (i + 1 < (x :: coords).length) := by
        simp only [List.length_cons]
        omega
      rw [if_neg h1, if_neg h]

theorem pairChecked_total : ∀ (ds : List ℚ) (p : Nat),
    pairChecked ds p 1 = some (pairPoints ds p)
  | [], p => by
    rw [pairChecked]
    norm_num
    rfl
  | [a], p => by
    rw [pairChecked]
    norm_num
    rfl
  | a :: b :: rest, p => by
    rw [pairChecked]
    have h1 : 1 < (a :: b :: rest).length := by
      simp only [List.length_cons]
      omega
    rw [if_pos h1]
    have hg1 : (a :: b :: rest).get? (1 - 1) = some a := rfl
    have hg2 : (a :: b :: rest).get? 1 = some b := rfl
    rw [hg1, hg2]
    have hshift2 : pairChecked (a :: b :: rest) p 3 = pairChecked rest p 1 := by
      rw [show (3:Nat) = 2 + 1 from rfl,
        pairChecked_shift ((b :: rest).length + 2) (b :: rest) a 2 p (by omega) (by omega),
        show (2:Nat) = 1 + 1 from rfl,
        pairChecked_shift (rest.length + 2) rest b 1 p (by omega) (by omega)]
    rw [show (1:Nat) + 2 = 3 from rfl, hshift2, pairChecked_total rest p]
    rfl

/-! ## Membership facts for arbitrary `parse` results -/

theorem sliceAux_mem (d : Nat) : ∀ (e i : Nat) (l : List Nat), 36 - i ≤ d →
    Chunks.sliceAux e i = some l → ∀ x ∈ l, x < 32 := by
  induction d with
  | zero =>
    intro e i l hd h
    have hi : 36 ≤ i := by omega
    rw [Chunks.sliceAux] at h
    have hsplit : (2:Nat) ^ i = 4294967296 * 2 ^ (i - 32) := by
      have h32 : (4294967296 : Nat) = 2 ^ 32 := by norm_num
      rw [h32, ← pow_add]
      congr 1
      omega
    have hz : 2 ^ i % 4294967296 = 0 := by
      rw [hsplit]
      exact Nat.mul_mod_right _ _
    rw [hz] at h
    rw [if_pos (by omega), if_pos (by omega)] at h
    exact absurd h (by simp)
  | succ d ih =>
    intro e i l hd h
    rw [Chunks.sliceAux] at h
    by_cases hcond : 2 ^ i % 4294967296 ≤ e
    · rw [if_pos hcond] at h
      by_cases hguard : 32 ≤ i
      · rw [if_pos hguard] at h
        exact absurd h (by simp)
      · rw [if_neg hguard] at h
        cases hrec : Chunks.sliceAux e (i + 5) with
        | none =>
          rw [hrec] at h
          exact absurd h (by simp)
        | some rest =>
          rw [hrec] at h
          simp only [Option.map_some'] at h
          obtain rfl : ((e >>> i) &&& 31) :: rest = l := by
            injection h
          intro x hx
          simp only [List.mem_cons] at hx
          rcases hx with hx | hx
          · subst hx
            exact and31_lt _
          · exact ih e (i + 5) rest (by omega) hrec x hx
    · rw [if_neg hcond] at h
      obtain rfl : ([] : List Nat) = l := by injection h
      intro x hx
      simp at hx

theorem parse_some_props (v : Nat) (cs : List Nat) (h : Chunks.parse v = some cs) :
    (∀ x ∈ cs, x < 32) ∧ cs ≠ [] := by
  unfold Chunks.parse Chunks.slice at h
  by_cases hv : v = 0
  · rw [if_pos hv] at h
    obtain rfl : [0] = cs := by injection h
    constructor
    · intro x hx
      simp only [List.mem_singleton] at hx
      omega
    · simp
  · rw [if_neg hv] at h
    constructor
    · exact sliceAux_mem 36 v 0 cs (by omega) h
    · rw [Chunks.sliceAux] at h
      have h1 : 2 ^ 0 % 4294967296 ≤ v := by
        norm_num
        omega
      rw [if_pos h1, if_neg (by omega)] at h
      cases hrec : Chunks.sliceAux v (0 + 5) with
      | none =>
        rw [hrec] at h
        exact absurd h (by simp)
      | some rest =>
        rw [hrec] at h
        simp only [Option.map_some'] at h
        obtain rfl : ((v >>> 0) &&& 31) :: rest = cs := by injection h
        simp

/-! ## Encode as a zip over (current, previous) pairs -/

theorem encodeLoop_pairs : ∀ (points : List Point) (p : Nat) (prev : Point),
    encodeLoop points p prev.latitude prev.longitude =
      encodePairs (points.zip (prev :: points)) p
  | [], _, _ => rfl
  | pt :: rest, p, prev => by
    rw [List.zip_cons_cons]
    have h1 : encodePairs ((pt, prev) :: rest.zip (pt :: rest)) p =
        (encode_element (pt.latitude - prev.latitude) p).bind (fun a =>
          (encode_element (pt.longitude - prev.longitude) p).bind (fun b =>
            (encodePairs (rest.zip (pt :: rest)) p).map (fun r => a ++ b ++ r))) := rfl
    rw [h1, ← encodeLoop_pairs rest p pt]
    rfl

/-! ## Claims -/

/-- C1 — counterexample to the claim as stated: the point `(-10000, 0)` is
exactly expressible with 5 decimal digits, yet `decode(encode(points, 5), 5)`
is not its rounding: the scaled delta `-10^9` saturates the `i32` cast, the
shifted value wraps, and the chunk loop diverges (`encode` returns no
value at all). -/
theorem c1_round_trip_counterexample :
    ¬ (Option.map (fun s => decode s 5) (encode [(⟨-10000, 0⟩ : Point)] 5) =
      some ([(⟨-10000, 0⟩ : Point)].map
        (fun pt => (⟨round pt.latitude 5, round pt.longitude 5⟩ : Point)))) := by
  have h1 : encode_element ((-10000 : ℚ) - 0) 5 = none := by
    unfold encode_element
    dsimp only
    have hq : ((-10000 : ℚ) - 0) * ((pow10 5 : Nat) : ℚ) = ((-1000000000 : Int) : ℚ) := by
      norm_num [pow10]
    rw [hq, rustRound_intCast]
    have hclamp : f64toI32 (-1000000000) = -1000000000 := by decide
    rw [hclamp]
    have hshift : toI32 (toU32 ((-1000000000 : Int) * 2)) = -2000000000 := by
      rw [show ((-1000000000 : Int) * 2) = -2000000000 by norm_num]
      exact toI32_toU32 _ (by norm_num) (by norm_num)
    rw [hshift, if_pos (by norm_num)]
    rw [show (-(-2000000000 : Int) - 1) = 1999999999 by norm_num]
    have hu : toU32 (1999999999 : Int) = 1999999999 := by decide
    rw [hu, parse_ge_none 1999999999 (by norm_num)]
    rfl
  have henc : encode [(⟨-10000, 0⟩ : Point)] 5 = none := by
    unfold encode encodeLoop
    dsimp only
    rw [h1]
    rfl
  rw [henc]
  simp

/-- C1 (amended): for every precision `p ≤ 9` and every sequence of points
whose coordinates are exactly expressible within `p` decimal digits with
scaled magnitude below `2^28`, `decode(encode(points, p), p)` equals the
elementwise rounding of the points to `p` decimal digits. -/
theorem c1_round_trip_bounded (points : List Point) (p : Nat) (hp : p ≤ 9)
    (hEB : ∀ pt ∈ points, ExactBounded pt.latitude p ∧ ExactBounded pt.longitude p) :
    Option.map (fun s => decode s p) (encode points p) =
      some (points.map (fun pt => (⟨round pt.latitude p, round pt.longitude p⟩ : Point))) := by
  obtain ⟨str, hstr, hacc⟩ :=
    encodeLoop_decodes points p 0 0 0 0 hp (by norm_num) (by norm_num) (by norm_num)
      (by norm_num) hEB
  unfold encode
  rw [hstr]
  simp only [Option.map_some']
  unfold decode
  rw [hacc]

/-- C1 — witness: the amended round trip at the point
`(0.00001, -0.00001)` with precision 5. -/
theorem c1_round_trip_bounded_witness :
    (∀ pt ∈ [(⟨1/100000, -1/100000⟩ : Point)],
      ExactBounded pt.latitude 5 ∧ ExactBounded pt.longitude 5) ∧
    Option.map (fun s => decode s 5) (encode [(⟨1/100000, -1/100000⟩ : Point)] 5) =
      some ([(⟨1/100000, -1/100000⟩ : Point)].map
        (fun pt => (⟨round pt.latitude 5, round pt.longitude 5⟩ : Point))) := by
  have hEB : ∀ pt ∈ [(⟨1/100000, -1/100000⟩ : Point)],
      ExactBounded pt.latitude 5 ∧ ExactBounded pt.longitude 5 := by
    intro pt hpt
    simp only [List.mem_singleton] at hpt
    subst hpt
    constructor
    · exact ⟨1, by norm_num [pow10], by norm_num⟩
    · exact ⟨-1, by norm_num [pow10], by norm_num⟩
  exact ⟨hEB, c1_round_trip_bounded _ 5 (by norm_num) hEB⟩

/-- C2: for every input string (any list of code points, including
characters below 63 and overlong groups) and every precision, `decode`
returns a point sequence and none of its operations aborts; the only
operation of the pipeline that could abort even under wrapping (release)
integer semantics — the `coordinates[i-1]`/`coordinates[i]` indexing of the
pairing loop — is proven in bounds (`decodeChecked` never returns
`none`). -/
theorem c2_decode_never_fails (s : List Nat) (p : Nat) :
    decodeChecked s p = some (decode s p) := by
  unfold decodeChecked decode
  rw [pairChecked_total]
  rfl

/-- C3: decode's accumulation pass starts from `(0,0)`, adds each point's
raw paired deltas to the running accumulator, and the rounded sum is both
the emitted coordinate and the new accumulator value: `decode` coincides
with the spec-worded pipeline that pairs the raw (unrounded) scan deltas and
accumulates them with rounded emission. -/
theorem c3_rounded_accumulator (s : List Nat) (p : Nat) :
    decode s p = specDecodeRaw s p := by
  unfold decode specDecodeRaw
  have hex : ∀ d ∈ scanCoords s [] p, round d p = d := by
    intro d hd
    obtain ⟨m, rfl⟩ := scanCoords_exact s [] p d hd
    exact round_div_pow10 m p
  rw [pairPoints_rawPairs _ p hex, accumPoints_rawAccum]

/-- C4: the element encoder is exactly the spec's pipeline — scale, round,
cast to `i32`, shift left by one, complement exactly when the original
unscaled delta is negative — and the sign test is observably on the
pre-scaling delta: testing the sign of the scaled integer instead gives a
different result at `delta = -0.000001`, `precision = 5` (where the delta is
negative but the scaled integer is 0). -/
theorem c4_element_encoder_sign (q : ℚ) (p : Nat) :
    encode_element q p = specElementEncoder q p ∧
    encode_element (-1/1000000 : ℚ) 5 ≠ scaledSignElementEncoder (-1/1000000 : ℚ) 5 := by
  constructor
  · unfold encode_element specElementEncoder
    dsimp only
    rw [show (f64toI32 (rustRound (q * ((pow10 p : Nat) : ℚ)))) * 2 =
        2 * (f64toI32 (rustRound (q * ((pow10 p : Nat) : ℚ)))) from Int.mul_comm _ 2]
  · have hr : rustRound ((-1/1000000 : ℚ) * ((pow10 5 : Nat) : ℚ)) = 0 := by
      have harg : (-1/1000000 : ℚ) * ((pow10 5 : Nat) : ℚ) = -1/10 := by
        norm_num [pow10]
      rw [harg]
      unfold rustRound
      rw [if_pos (by norm_num)]
      norm_num
    have hlhs : encode_element (-1/1000000 : ℚ) 5 = none := by
      unfold encode_element
      dsimp only
      rw [hr]
      have hclamp : f64toI32 0 = 0 := by decide
      rw [hclamp]
      have hsh : toI32 (toU32 ((0 : Int) * 2)) = 0 := by decide
      rw [hsh, if_pos (by norm_num)]
      rw [show (-(0:Int) - 1) = -1 by norm_num]
      have hu : toU32 (-1 : Int) = 4294967295 := by decide
      rw [hu, parse_ge_none _ (by norm_num)]
      rfl
    have hrhs : scaledSignElementEncoder (-1/1000000 : ℚ) 5 = some [63] := by
      unfold scaledSignElementEncoder
      dsimp only
      rw [hr]
      have hclamp : f64toI32 0 = 0 := by decide
      rw [hclamp]
      have hsh : toI32 (toU32 ((2 : Int) * 0)) = 0 := by decide
      rw [hsh, if_neg (by norm_num)]
      have hu : toU32 (0 : Int) = 0 := by decide
      rw [hu]
      have hp0 : Chunks.parse 0 = some [0] := rfl
      rw [hp0]
      have hs0 : Chunks.string [0] = some [63] := by decide
      rw [Option.some_bind, hs0]
    rw [hlhs, hrhs]
    simp

/-- C5 — the code evaluated at the failing input: for `v = 2^30` (and any
larger value) `Chunks::parse` produces no value at all — when the loop
offset reaches 35 the `u32` power `2^35` has wrapped to 0, so the test
`base.pow(i) <= element` never fails again and the loop does not terminate
(in a debug build `pow` panics), contradicting the claim's bounded group
production. -/
theorem c5_slice_diverges : Chunks.parse 1073741824 = none :=
  parse_ge_none 1073741824 (by norm_num)

/-- C6 — counterexample: on the `parse_line` output of the 8-character group
`"aaaaaaaA"` (7 continuation characters and a terminator), `coordinate`
masks the eighth chunk's shift amount to `35 % 32 = 3` (Rust release
semantics), which differs from the spec's `5 * index` formula, so the decoded
delta differs. -/
theorem c6_coordinate_counterexample :
    Chunks.coordinate (Chunks.parse_line [97, 97, 97, 97, 97, 97, 97, 65]) 5 ≠
      specCoordinate (Chunks.parse_line [97, 97, 97, 97, 97, 97, 97, 65]) 5 := by
  have hpl : Chunks.parse_line [97, 97, 97, 97, 97, 97, 97, 65] =
      [2, 2, 2, 2, 2, 2, 2, 2] := by decide
  rw [hpl]
  have h1 : Chunks.coordAux [2, 2, 2, 2, 2, 2, 2, 2] 0 0 = -2078209966 := by decide
  have h2 : specSumAux [2, 2, 2, 2, 2, 2, 2, 2] 0 % 4294967296 = 2216757314 := by decide
  unfold Chunks.coordinate specCoordinate
  dsimp only
  rw [h1, h2]
  have h3 : toI32 2216757314 = -2078209982 := by decide
  rw [h3]
  norm_num [pow10]
  intro hcon
  have hf1 : ((-2078209966 : Int)).fdiv 2 = -1039104983 := by decide
  have hf2 : ((-2078209982 : Int)).fdiv 2 = -1039104991 := by decide
  rw [hf1, hf2] at hcon
  norm_num at hcon

/-- C6 (amended): for every chunk sequence produced by `parse_line` from a
group of at most 7 characters, `coordinate` reassembles the groups by
summing each group left-shifted by `5 * index` (as a signed 32-bit pattern),
complements when the low bit is 1, arithmetic-shifts right by one, and
divides by `10^precision`. -/
theorem c6_coordinate_spec (line : List Nat) (p : Nat) (hlen : line.length ≤ 7) :
    Chunks.coordinate (Chunks.parse_line line) p =
      specCoordinate (Chunks.parse_line line) p := by
  unfold Chunks.coordinate specCoordinate
  dsimp only
  have hlt : ∀ x ∈ Chunks.parse_line line, x < 4294967296 :=
    parseLineAux_lt line (byteLen line) 0
  have hlen2 : (Chunks.parse_line line).length ≤ 7 := by
    unfold Chunks.parse_line
    rw [parseLineAux_length]
    exact hlen
  rw [coordAux_total _ hlt hlen2, specSumAux_eq _ 0]
  norm_num

/-- C6 — witness: the amended formula at the single-character group `"A"`
with precision 5. -/
theorem c6_coordinate_spec_witness :
    ([65] : List Nat).length ≤ 7 ∧
    Chunks.coordinate (Chunks.parse_line [65]) 5 =
      specCoordinate (Chunks.parse_line [65]) 5 :=
  ⟨by norm_num, c6_coordinate_spec [65] 5 (by norm_num)⟩

/-- C7: `encode` processes points in order, encoding each point against the
raw (unrounded) coordinates of its predecessor — equivalently, it equals the
zip-with-previous formulation whose first previous point is the origin — and
encodes the empty sequence to the empty string. -/
theorem c7_encode_accumulators (points : List Point) (p : Nat) :
    encode points p = specEncode points p ∧ encode ([] : List Point) p = some [] := by
  constructor
  · unfold encode specEncode
    exact encodeLoop_pairs points p ⟨0, 0⟩
  · rfl

/-- C8: for every chunk sequence produced by `parse`, rendering to string
ORs `0x20` into every group but the last, adds 63 to every group, and every
resulting value is a printable ASCII code in `[63, 126]`, so the
numeric-to-character conversion never fails. -/
theorem c8_string_ascii (v : Nat) (cs : List Nat) (h : Chunks.parse v = some cs) :
    Chunks.string cs = some (Chunks.or cs) ∧
    ∀ c ∈ Chunks.or cs, 63 ≤ c ∧ c ≤ 126 := by
  obtain ⟨hlt, hne⟩ := parse_some_props v cs h
  obtain ⟨_, _, hrange, hstr⟩ := or_props cs hlt hne
  exact ⟨hstr, hrange⟩

/-- C8 — witness: the rendering guarantees at `parse 17 = some [17]`. -/
theorem c8_string_ascii_witness :
    Chunks.parse 17 = some [17] ∧
    (Chunks.string [17] = some (Chunks.or [17]) ∧
      ∀ c ∈ Chunks.or [17], 63 ≤ c ∧ c ≤ 126) := by
  have hp : Chunks.parse 17 = some [17] := by
    unfold Chunks.parse Chunks.slice
    rw [if_neg (by norm_num)]
    rw [Chunks.sliceAux]
    norm_num
    rw [Chunks.sliceAux]
    norm_num
    decide
  exact ⟨hp, c8_string_ascii 17 [17] hp⟩

/-- C9: `decode` silently discards (i) trailing characters whose
continuation bit never clears (appending such a tail never changes the
result), and (ii) a dangling final delta with no partner (pairing only
consumes an even prefix); `decode("", p) = []` and `decode("a", 5) = []`. -/
theorem c9_decode_discards (s t : List Nat) (p : Nat) (ds : List ℚ)
    (ht : ∀ c ∈ t, contBitClear c = false) :
    decode (s ++ t) p = decode s p ∧
    pairPoints ds p = pairPoints (ds.take (2 * (ds.length / 2))) p ∧
    decode [] p = [] ∧ decode [97] 5 = [] := by
  refine ⟨?_, pairPoints_take_even ds p, rfl, by decide⟩
  unfold decode
  rw [scanCoords_append, scanCoords_no_term t _ p ht, List.append_nil]

/-- C9 — witness: discarding behaviour at `s = "?"`, `t = "a"`,
`ds = [1]`. -/
theorem c9_decode_discards_witness :
    (∀ c ∈ [(97 : Nat)], contBitClear c = false) ∧
    (decode ([63] ++ [97]) 5 = decode [63] 5 ∧
      pairPoints [(1 : ℚ)] 5 =
        pairPoints (([(1 : ℚ)]).take (2 * (([(1 : ℚ)]).length / 2))) 5 ∧
      decode [] 5 = [] ∧ decode [97] 5 = []) := by
  have ht : ∀ c ∈ [(97 : Nat)], contBitClear c = false := by decide
  exact ⟨ht, c9_decode_discards [63] [97] 5 [(1 : ℚ)] ht⟩

/-- C10: for every polyline string of characters with code point at least
63 whose completed groups have at most 6 characters, and every precision
`p ≤ 9`, `decode` returns (it is total) exactly `g / 2` points, where `g`
is the number of completed groups (characters whose continuation bit is
clear). -/
theorem c10_decode_point_count (s : List Nat) (p : Nat)
    (hchars : ∀ c ∈ s, 63 ≤ c) (hgroups : maxGroupLenAux s 0 ≤ 6) (hp : p ≤ 9) :
    (decode s p).length = (s.countP (fun c => contBitClear c)) / 2 := by
  unfold decode
  rw [accumPoints_length, pairPoints_length, scanCoords_length]

/-- C10 — witness: the point count at the string `"??"` with precision 5. -/
theorem c10_decode_point_count_witness :
    (∀ c ∈ [(63 : Nat), 63], 63 ≤ c) ∧ maxGroupLenAux [63, 63] 0 ≤ 6 ∧ (5 : Nat) ≤ 9 ∧
    (decode [63, 63] 5).length =
      (([63, 63] : List Nat).countP (fun c => contBitClear c)) / 2 :=
  ⟨by decide, by decide, by norm_num,
    c10_decode_point_count [63, 63] 5 (by decide) (by decide) (by norm_num)⟩

end Polyline
